import Mathlib

/-!
# Verification of the URL Collector webhook client

Shallow embedding of the repository's logic in Lean 4:

* `UrlForm.tsx` — `normalizeUrl`, `validateUrl`, `handleSubmit` (the
  submission pipeline: trim / prepend scheme / parse / check protocol);
* `App.tsx` — the webhook response interpreter (`postWebhook`'s branch on
  status, content type and body, with `findImageDeep` over parsed JSON),
  `getFilename` for downloads, and the toast queue with its 3000 ms
  self-removal timers.

JavaScript string primitives (`trim`, `startsWith`, `includes`, the image
regex) are embedded as executable functions over `List Char`.  The browser's
`new URL` constructor is a platform collaborator, not repository code; it is
modelled from the WHATWG URL standard in `parseURL` below, restricted to the
fragment this client exercises.
-/

namespace UrlCollector

/-! ## JavaScript string primitives -/

/-- The character set removed by JavaScript `String.prototype.trim`
(whitespace and line terminators, ECMA-262 `TrimString`). -/
def isJsWs (c : Char) : Bool :=
  c = ' ' || c = '\t' || c = '\n' || c = '\r' ||
  c = '\x0b' || c = '\x0c' || c = ' ' || c = '﻿' ||
  c = ' ' || (0x2000 ≤ c.toNat && c.toNat ≤ 0x200A) ||
  c = ' ' || c = ' ' || c = ' ' || c = ' ' || c = '　'

/-- Remove trailing whitespace. -/
def dropEndWs (l : List Char) : List Char :=
  (l.reverse.dropWhile isJsWs).reverse

/-- Remove leading and trailing whitespace. -/
def trimChars (l : List Char) : List Char :=
  dropEndWs (l.dropWhile isJsWs)

/-- JavaScript `s.trim()`. -/
def jsTrim (s : String) : String := String.mk (trimChars s.data)

/-- JavaScript `s.startsWith(pre)` (code-unit prefix test, case sensitive). -/
def jsStartsWith (s pre : String) : Bool := pre.data.isPrefixOf s.data

/-- Contiguous-subsequence test on character lists. -/
def containsSeq (needle : List Char) : List Char → Bool
  | [] => needle.isEmpty
  | c :: rest => needle.isPrefixOf (c :: rest) || containsSeq needle rest

/-- JavaScript `s.includes(sub)` (contiguous substring test). -/
def jsIncludes (s sub : String) : Bool := containsSeq sub.data s.data

/-! ## The image-reference pattern

`App.tsx` tests candidate strings against the regular expression
`/^(data:image\x2f.+;base64,|https?:\x2f\x2f)/i` (written twice in the
source, once as `looksLikeUrl` inside the JSON branch and once inline in the
text branch). -/

/-- A character matched by `.` in a JavaScript regex without the `s` flag:
anything but a line terminator. -/
def regexDotChar (c : Char) : Bool :=
  !(c = '\n' || c = '\r' || c = ' ' || c = ' ')

/-- Matches the regex fragment `.+;base64,` anchored at the start of the
list: one or more non-terminator characters followed by the literal
`;base64,`. -/
def dotPlusBase64 : List Char → Bool
  | [] => false
  | c :: rest =>
    regexDotChar c && (";base64,".data.isPrefixOf rest || dotPlusBase64 rest)

/-- `App.tsx`'s `looksLikeUrl`: the body of the case-insensitive anchored
regex test.  Case-insensitivity is embedded by lowercasing the subject; the
literal alternatives are already lowercase. -/
def looksLikeUrl (s : String) : Bool :=
  let t := s.data.map Char.toLower
  ("data:image/".data.isPrefixOf t && dotPlusBase64 (t.drop 11)) ||
  "http://".data.isPrefixOf t || "https://".data.isPrefixOf t

/-! ## URL normalization (`UrlForm.tsx`, `normalizeUrl`) -/

/-- `UrlForm.tsx`'s `normalizeUrl`: trim; empty input maps to the empty
string; text already carrying an `http://`/`https://` prefix is returned
trimmed; otherwise `https://` is prepended. -/
def normalizeUrl (input : String) : String :=
  let trimmed := jsTrim input
  if trimmed = "" then ""
  else if jsStartsWith trimmed "http://" || jsStartsWith trimmed "https://" then trimmed
  else "https://" ++ trimmed

/-! ## The `new URL` platform collaborator

Modelled from the WHATWG URL standard: the fragment of the basic URL parser
this client can reach (absolute URL, no base).  Approximations, none of
which the repository's inputs exercise: IPv6 host literals are treated as
parse failures, hosts are not punycoded or percent-decoded, percent-encoded
dot segments are not recognised, and no percent-encoding is applied to
paths. -/

/-- Scheme characters after the first (`a`–`z`, digits, `+`, `-`, `.`). -/
def isSchemeChar (c : Char) : Bool := c.isAlphanum || c = '+' || c = '-' || c = '.'

/-- Split a character list at the first `:`, returning the parts before and
after it. -/
def splitAtColon : List Char → Option (List Char × List Char)
  | [] => none
  | c :: rest =>
    if c = ':' then some ([], rest)
    else match splitAtColon rest with
      | none => none
      | some (a, b) => some (c :: a, b)

/-- Forbidden host code points (WHATWG URL §3.5); `[` and `]` are included
because IPv6 literals are out of the modelled fragment. -/
def forbiddenHostChar (c : Char) : Bool :=
  c = '\x00' || c = '\t' || c = '\n' || c = '\r' || c = ' ' || c = '#' ||
  c = '/' || c = ':' || c = '<' || c = '>' || c = '?' || c = '@' ||
  c = '[' || c = '\\' || c = ']' || c = '^' || c = '|'

/-- A valid port: empty, or decimal digits with value below 2^16. -/
def portDigits (l : List Char) : Bool :=
  l.isEmpty || (l.all Char.isDigit &&
    (l.foldl (fun n c => n * 10 + (c.toNat - 48)) 0) < 65536)

/-- The part of the authority after the last `@` (the whole list when no
`@` is present): userinfo is discarded. -/
def afterLastAt (l : List Char) : List Char :=
  (l.reverse.takeWhile (fun c => c ≠ '@')).reverse

/-- Cut a path-and-beyond character list at the first `?` or `#`. -/
def dropQueryFragment (l : List Char) : List Char :=
  l.takeWhile (fun c => c ≠ '?' && c ≠ '#')

/-- JavaScript `split(sep)` on a character list: the result is nonempty and
the separators are dropped (`""` splits to `[""]`, `"/"` to `["", ""]`). -/
def splitOnChar (sep : Char) : List Char → List (List Char)
  | [] => [[]]
  | c :: rest =>
    if c = sep then [] :: splitOnChar sep rest
    else match splitOnChar sep rest with
      | [] => [[c]]
      | seg :: segs => (c :: seg) :: segs

/-- Process raw path segments as the WHATWG path state does: `..` pops the
previous segment, `.` is dropped, and a trailing dot segment leaves a
trailing empty segment. -/
def pathSegments (acc : List String) : List String → List String
  | [] => acc
  | [seg] =>
    if seg = ".." then acc.dropLast ++ [""]
    else if seg = "." then acc ++ [""]
    else acc ++ [seg]
  | seg :: rest =>
    if seg = ".." then pathSegments acc.dropLast rest
    else if seg = "." then pathSegments acc rest
    else pathSegments (acc ++ [seg]) rest

/-- Serialized pathname from the characters following the authority.  For
special schemes `\` separates like `/` and the empty path serializes as
`/`; for other schemes the empty path stays empty. -/
def pathnameFrom (special : Bool) (l : List Char) : String :=
  let p := dropQueryFragment l
  let p := if special then p.map (fun c => if c = '\\' then '/' else c) else p
  match p with
  | [] => if special then "/" else ""
  | _ =>
    let rawSegs := (splitOnChar '/' p).map String.mk
    "/" ++ String.intercalate "/" (pathSegments [] (rawSegs.drop 1))

/-- The WHATWG special schemes. -/
def specialSchemes : List String := ["ftp", "file", "http", "https", "ws", "wss"]

/-- Input preprocessing of the basic URL parser: remove every tab and
newline, then strip leading and trailing C0 controls and spaces. -/
def urlPreprocess (s : String) : List Char :=
  let l := s.data.filter (fun c => c ≠ '\t' && c ≠ '\n' && c ≠ '\r')
  ((l.dropWhile (fun c => c.toNat ≤ 32)).reverse.dropWhile
    (fun c => c.toNat ≤ 32)).reverse

/-- The observable part of a parsed URL used by this repository:
`protocol` (lowercased scheme with trailing colon) and `pathname`. -/
structure URLModel where
  protocol : String
  pathname : String
deriving DecidableEq, Repr

/-- Modelled from the WHATWG URL standard (the browser's `new URL(input)`
with no base): `none` models the constructor throwing. -/
def parseURL (input : String) : Option URLModel :=
  match splitAtColon (urlPreprocess input) with
  | none => none
  | some (pre, rest) =>
    match pre with
    | [] => none
    | c0 :: _ =>
      if !c0.isAlpha then none
      else if !pre.all isSchemeChar then none
      else
        let scheme := String.mk (pre.map Char.toLower)
        if scheme ∈ specialSchemes then
          let afterSl := rest.dropWhile (fun c => c = '/' || c = '\\')
          let auth := afterSl.takeWhile
            (fun c => !(c = '/' || c = '\\' || c = '?' || c = '#'))
          let path := afterSl.drop auth.length
          if scheme = "file" then
            some ⟨"file:", pathnameFrom true path⟩
          else
            let hp := afterLastAt auth
            let host := match splitAtColon hp with
              | some (h, _) => h
              | none => hp
            let port := match splitAtColon hp with
              | some (_, p) => p
              | none => []
            if host.isEmpty then none
            else if host.any forbiddenHostChar then none
            else if !portDigits port then none
            else some ⟨scheme ++ ":", pathnameFrom true path⟩
        else
          if "//".data.isPrefixOf rest then
            let afterSl := rest.drop 2
            let auth := afterSl.takeWhile (fun c => !(c = '/' || c = '?' || c = '#'))
            let path := afterSl.drop auth.length
            let hp := afterLastAt auth
            let host := match splitAtColon hp with
              | some (h, _) => h
              | none => hp
            let port := match splitAtColon hp with
              | some (_, p) => p
              | none => []
            if host.any forbiddenHostChar then none
            else if !portDigits port then none
            else some ⟨scheme ++ ":", pathnameFrom false path⟩
          else
            some ⟨scheme ++ ":", String.mk (dropQueryFragment rest)⟩

/-! ## URL validation and the submission pipeline (`UrlForm.tsx`) -/

/-- `UrlForm.tsx`'s `validateUrl`: parse with `new URL` and accept exactly
the protocols `http:` and `https:`; a throwing parse yields `false`. -/
def validateUrl (input : String) : Bool :=
  match parseURL input with
  | some u => u.protocol = "http:" || u.protocol = "https:"
  | none => false

/-- Outcome of `UrlForm.tsx`'s `handleSubmit` as observable in the UI. -/
inductive SubmitOutcome where
  | emptyInput
  | invalidUrl
  | submitted (url : String)
deriving DecidableEq, Repr

/-- `UrlForm.tsx`'s `handleSubmit`: reject blank input, normalize, reject
when validation of the normalized text fails, otherwise submit the
normalized URL. -/
def handleSubmit (url : String) : SubmitOutcome :=
  if jsTrim url = "" then .emptyInput
  else
    let normalizedUrl := normalizeUrl url
    if !validateUrl normalizedUrl then .invalidUrl
    else .submitted normalizedUrl

/-! ## JSON values (`res.json()` results)

JSON values as `JSON.parse` produces them.  Object fields are kept in
insertion order, which is the `Object.keys` enumeration order for the
string-keyed objects this webhook protocol uses. -/

mutual
inductive Json where
  | null : Json
  | bool (b : Bool) : Json
  | num (n : Int) : Json
  | str (s : String) : Json
  | arr (elems : JsonArr) : Json
  | obj (fields : JsonObj) : Json
deriving DecidableEq, Repr

inductive JsonArr where
  | nil : JsonArr
  | cons (hd : Json) (tl : JsonArr) : JsonArr
deriving DecidableEq, Repr

inductive JsonObj where
  | nil : JsonObj
  | cons (key : String) (val : Json) (tl : JsonObj) : JsonObj
deriving DecidableEq, Repr
end

/-- JavaScript property read `obj[key]` on a parsed object (`none` models
`undefined`). -/
def jLookup : JsonObj → String → Option Json
  | .nil, _ => none
  | .cons k v rest, key => if k = key then some v else jLookup rest key

/-- One step of the nullish-coalescing chain: a property access that skips
over a missing key and over a `null` value, as `??` does. -/
def getNonNull (fields : JsonObj) (key : String) : Option Json :=
  match jLookup fields key with
  | some Json.null => none
  | some v => some v
  | none => none

/-- First non-nullish value among the given keys. -/
def firstNonNull (fields : JsonObj) : List String → Option Json
  | [] => none
  | k :: ks =>
    match getNonNull fields k with
    | some v => some v
    | none => firstNonNull fields ks

/-- The priority key list of `findImageDeep`'s `??` chain. -/
def priorityKeys : List String :=
  ["image", "imageUrl", "image_url", "thumbnail", "thumb", "url"]

/-- `obj.image ?? obj.imageUrl ?? obj.image_url ?? obj.thumbnail ??
obj.thumb ?? obj.url`. -/
def directLookup (fields : JsonObj) : Option Json := firstNonNull fields priorityKeys

/-- The `direct` check of `findImageDeep`: the chain's value is returned
only when it is a string matching the image pattern; any other outcome
falls through to the key loop. -/
def directImage (fields : JsonObj) : Option String :=
  match directLookup fields with
  | some (Json.str s) => if looksLikeUrl s then some s else none
  | _ => none

/-! `App.tsx`'s `findImageDeep`.  In JavaScript, arrays are objects:
`typeof [] === 'object'`, the `??` chain reads `undefined` off them, and
the `for (const key of Object.keys(obj))` loop enumerates their elements by
index.  `findImageDeep` therefore descends into arrays exactly as it does
into objects; `searchArr` is that index loop.  The key loop tests any
string value against the pattern (`scanVal`) and recurses into object or
array values; `null`, numbers and booleans are skipped. -/

mutual
def findImageDeep : Json → Option String
  | Json.obj fields =>
    match directImage fields with
    | some s => some s
    | none => searchObj fields
  | Json.arr elems => searchArr elems
  | _ => none

def searchObj : JsonObj → Option String
  | .nil => none
  | .cons _ v rest =>
    match scanVal v with
    | some s => some s
    | none => searchObj rest

def searchArr : JsonArr → Option String
  | .nil => none
  | .cons v rest =>
    match scanVal v with
    | some s => some s
    | none => searchArr rest

def scanVal : Json → Option String
  | Json.str s => if looksLikeUrl s then some s else none
  | Json.obj fields =>
    match directImage fields with
    | some s => some s
    | none => searchObj fields
  | Json.arr elems => searchArr elems
  | _ => none
end

/-! ## The response interpreter (`App.tsx`, `postWebhook`) -/

/-- An HTTP response as `postWebhook` observes it.  `ok` is `res.ok`
(2xx status); `contentType` is `res.headers.get('content-type') || ''`;
`jsonBody` is the outcome of `res.json()` (`none` models the parse throwing,
caught and discarded by the code); `textBody` is `res.text()`. -/
structure WebhookResponse where
  ok : Bool
  contentType : String
  jsonBody : Option Json
  textBody : String
deriving DecidableEq, Repr

/-- Classification of a webhook response, following the branch taken by
`postWebhook`.  `imageBlob` is the `image/*` branch (an object URL wrapping
the binary body); `imageRef` carries the URL or data URI shown in the UI;
`note` carries the advisory text set with a success toast; `webhookError`
is the non-2xx branch, which sets its note together with an error toast —
the spec's `Error(WebhookError)`. -/
inductive InterpretationResult where
  | imageBlob
  | imageRef (src : String)
  | note (text : String)
  | webhookError (text : String)
deriving DecidableEq, Repr

/-- The response-interpretation logic of `postWebhook`, branch for branch.
A failed JSON parse leaves `data = null`, over which `findImageDeep`
returns `null`. -/
def interpret (r : WebhookResponse) : InterpretationResult :=
  if r.ok then
    if jsStartsWith r.contentType "image/" then
      InterpretationResult.imageBlob
    else if jsIncludes r.contentType "application/json" then
      match findImageDeep (r.jsonBody.getD Json.null) with
      | some found => InterpretationResult.imageRef found
      | none => InterpretationResult.note "Webhook responded but no image field was found."
    else
      if r.textBody ≠ "" ∧ looksLikeUrl (jsTrim r.textBody) = true then
        InterpretationResult.imageRef (jsTrim r.textBody)
      else if r.textBody = "" then
        InterpretationResult.note "Webhook responded with no body."
      else
        InterpretationResult.note "Webhook responded but no image field was found."
  else
    InterpretationResult.webhookError "Webhook responded with an error."

/-- The spec's example body, `JSON.parse` of the text
`"data": ... "thumb": "https://x/y.png"` nested one level. -/
def exampleBody : Json :=
  Json.obj (JsonObj.cons "data"
    (Json.obj (JsonObj.cons "thumb" (Json.str "https://x/y.png") JsonObj.nil))
    JsonObj.nil)

/-- A body whose only image-pattern string sits inside an array:
`"items": ["https://x/y.png"]`. -/
def arrayBody : Json :=
  Json.obj (JsonObj.cons "items"
    (Json.arr (JsonArr.cons (Json.str "https://x/y.png") JsonArr.nil))
    JsonObj.nil)

/-! ## Spec-side characterization of the deep search

`hasImage` is written from the spec's words, not from the code: a match
"exists anywhere" when some string value strictly inside the structure —
reachable through object fields or array elements — satisfies the image
pattern.  It is compared with `findImageDeep` in the theorems below. -/

mutual
def hasImage : Json → Bool
  | Json.obj fields => hasImageObj fields
  | Json.arr elems => hasImageArr elems
  | _ => false

def hasImageObj : JsonObj → Bool
  | .nil => false
  | .cons _ v rest => scanHas v || hasImageObj rest

def hasImageArr : JsonArr → Bool
  | .nil => false
  | .cons v rest => scanHas v || hasImageArr rest

def scanHas : Json → Bool
  | Json.str s => looksLikeUrl s
  | Json.obj fields => hasImageObj fields
  | Json.arr elems => hasImageArr elems
  | _ => false
end

/-! ## Download filenames (`App.tsx`, `getFilename`) -/

/-- `App.tsx`'s `getFilename`: data URIs and unparsable references map to
`preview.png`; otherwise the last `/`-separated segment of `pathname`
(`'preview'` when that segment is empty) is used, with `.png` appended when
it contains no dot. -/
def getFilename (urlStr : String) : String :=
  if jsStartsWith urlStr "data:image/" then "preview.png"
  else
    match parseURL urlStr with
    | none => "preview.png"
    | some u =>
      let nameRaw := ((splitOnChar '/' u.pathname.data).map String.mk).getLast?.getD ""
      let name := if nameRaw = "" then "preview" else nameRaw
      if jsIncludes name "." then name else name ++ ".png"

/-- The "last path segment" of the amended claim: what
`pathname.split('/').pop()` yields. -/
def lastSegment (pathname : String) : String :=
  ((splitOnChar '/' pathname.data).map String.mk).getLast?.getD ""

/-! ## The toast queue (`App.tsx`, `addToast` / `removeToast`)

`addToast` appends `{id: Date.now().toString(), message, type}` and
schedules `setTimeout(3000)` that filters the queue by that id;
`removeToast` filters immediately.  Time is in milliseconds; a toast's id
is its insertion time. -/

inductive ToastType where
  | success
  | error
  | info
deriving DecidableEq, Repr

structure ToastMsg where
  id : Nat
  message : String
  ttype : ToastType
deriving DecidableEq, Repr

/-- External stimuli: `add` is a call to `addToast` at its timestamp,
`dismiss` is a manual `removeToast` click. -/
inductive ToastEvent where
  | add (message : String) (ttype : ToastType)
  | dismiss (id : Nat)
deriving DecidableEq, Repr

/-- Primitive queue updates: `push` is the append inside `addToast`,
`removeId` is the `filter (toast.id !== id)` used both by the timeout
callback and by `removeToast`. -/
inductive ToastAction where
  | push (m : ToastMsg)
  | removeId (i : Nat)
deriving DecidableEq, Repr

def applyAction (q : List ToastMsg) : ToastAction → List ToastMsg
  | .push m => q ++ [m]
  | .removeId i => q.filter (fun t => t.id ≠ i)

/-- The timed actions produced by one event: an `add` at `t` pushes a toast
with id `t` and schedules its removal at `t + 3000`; a manual dismissal
removes at once. -/
def eventActions : Nat × ToastEvent → List (Nat × ToastAction)
  | (t, .add msg ty) => [(t, .push ⟨t, msg, ty⟩), (t + 3000, .removeId t)]
  | (t, .dismiss i) => [(t, .removeId i)]

def allActions : List (Nat × ToastEvent) → List (Nat × ToastAction)
  | [] => []
  | ev :: rest => eventActions ev ++ allActions rest

/-- Chronological insertion (later-or-equal timestamps stay behind earlier
ones). -/
def insertByTime (a : Nat × ToastAction) : List (Nat × ToastAction) → List (Nat × ToastAction)
  | [] => [a]
  | b :: rest => if b.1 ≤ a.1 then b :: insertByTime a rest else a :: b :: rest

/-- All actions of a schedule, ordered by time. -/
def timeline (sched : List (Nat × ToastEvent)) : List (Nat × ToastAction) :=
  (allActions sched).foldr insertByTime []

/-- The toast queue visible at time `τ`: all actions due by `τ`, applied in
chronological order to the empty queue. -/
def visibleAt (sched : List (Nat × ToastEvent)) (τ : Nat) : List ToastMsg :=
  ((timeline sched).filter (fun a => a.1 ≤ τ)).foldl
    (fun q a => applyAction q a.2) []

/-! ## Submission lifecycle (`App.tsx`, `handleUrlSubmit` / `postWebhook`)

The controller owns `webhookImage`, `webhookNote` and `webhookLoading`.
Each submission's `postWebhook` first clears image and note and sets
loading, then—whenever its response arrives—writes its result and clears
loading.  There is no cancellation: a handler of a superseded submission
still fires.  States are tagged with the index of the submission that wrote
each slot, to talk about provenance. -/

structure TaggedState where
  image : Option (Nat × String)
  note : Option (Nat × String)
  loading : Bool
deriving DecidableEq, Repr

def initState : TaggedState := ⟨none, none, false⟩

/-- Lifecycle events: `submit n` runs the prologue of submission `n`'s
`postWebhook`; `respond n r` runs its completion handler on an interpreted
response. -/
inductive AppEvent where
  | submit (n : Nat)
  | respond (n : Nat) (r : InterpretationResult)
deriving DecidableEq, Repr

def applyEvent (s : TaggedState) : AppEvent → TaggedState
  | .submit _ => ⟨none, none, true⟩
  | .respond n r =>
    match r with
    | .imageBlob => { s with image := some (n, "objectUrl"), loading := false }
    | .imageRef u => { s with image := some (n, u), loading := false }
    | .note m => { s with note := some (n, m), loading := false }
    | .webhookError m => { s with note := some (n, m), loading := false }

def run (tr : List AppEvent) : TaggedState := tr.foldl applyEvent initState

/-- Well-formed traces: a response only for a previously started
submission, at most one response per submission, no repeated submission
indices. -/
def traceOKAux : List Nat → List Nat → List AppEvent → Bool
  | _, _, [] => true
  | subs, resp, .submit n :: rest =>
    !subs.contains n && traceOKAux (n :: subs) resp rest
  | subs, resp, .respond n _ :: rest =>
    subs.contains n && !resp.contains n && traceOKAux subs (n :: resp) rest

def traceOK (tr : List AppEvent) : Bool := traceOKAux [] [] tr

/-- Sequential traces: every response is handled while its submission is
still the latest one, and at most once. -/
def seqOKAux : Option Nat → Bool → List AppEvent → Bool
  | _, _, [] => true
  | _, _, .submit n :: rest => seqOKAux (some n) false rest
  | cur, responded, .respond n _ :: rest =>
    decide (cur = some n) && !responded && seqOKAux cur true rest

def seqOK (tr : List AppEvent) : Bool := seqOKAux none false tr

/-- The latest submission started in a trace, continuing from `cur`. -/
def lastSubmittedFrom (cur : Option Nat) (tr : List AppEvent) : Option Nat :=
  tr.foldl (fun c e => match e with | .submit n => some n | _ => c) cur

/-- The latest submission started in a trace. -/
def lastSubmitted (tr : List AppEvent) : Option Nat :=
  lastSubmittedFrom none tr

/-- The submission indices owning the currently displayed result slots. -/
def tagsOf (s : TaggedState) : List Nat :=
  (match s.image with | some (n, _) => [n] | none => []) ++
  (match s.note with | some (n, _) => [n] | none => [])

/-- A well-formed event interleaving in which the user resubmits before
submission 0's handler has fired and both handlers then complete (the
stale-response race acknowledged by the design). -/
def raceTrace : List AppEvent :=
  [AppEvent.submit 0, AppEvent.submit 1,
   AppEvent.respond 0 (InterpretationResult.imageRef "https://a/b.png"),
   AppEvent.respond 1
     (InterpretationResult.note "Webhook responded but no image field was found.")]

/-! # Theorems -/

/-! ## Trimming lemmas -/

theorem dropWhile_dropWhile_eq (p : α → Bool) (l : List α) :
    (l.dropWhile p).dropWhile p = l.dropWhile p := by
  induction l with
  | nil => rfl
  | cons c cs ih => by_cases h : p c = true <;> simp [List.dropWhile_cons, h, ih]

theorem head_false_of_dropWhile_fix {p : α → Bool} {c : α} {cs : List α}
    (h : (c :: cs).dropWhile p = c :: cs) : p c = false := by
  have hh := List.head?_dropWhile_not p (c :: cs)
  rw [h] at hh
  simpa using hh

theorem dropWhile_eq_self_of_pre {p : α → Bool} {a b : List α}
    (h : a.dropWhile p = a) (hpre : b <+: a) : b.dropWhile p = b := by
  cases b with
  | nil => rfl
  | cons c cs =>
    cases a with
    | nil => simp at hpre
    | cons d ds =>
      have hcd : c = d := (List.cons_prefix_cons.mp hpre).1
      have hd : p d = false := head_false_of_dropWhile_fix h
      rw [List.dropWhile_cons_of_neg (by simp [hcd, hd])]

theorem dropEndWs_prefixOf (l : List Char) : dropEndWs l <+: l := by
  have := List.reverse_prefix.mpr (List.dropWhile_suffix (l := l.reverse) isJsWs)
  rwa [List.reverse_reverse] at this

theorem dropEndWs_idem (l : List Char) : dropEndWs (dropEndWs l) = dropEndWs l := by
  unfold dropEndWs
  rw [List.reverse_reverse, dropWhile_dropWhile_eq]

theorem trimChars_dropWhile (l : List Char) :
    (trimChars l).dropWhile isJsWs = trimChars l :=
  dropWhile_eq_self_of_pre (dropWhile_dropWhile_eq isJsWs l) (dropEndWs_prefixOf _)

theorem trimChars_reverse_dropWhile (l : List Char) :
    (trimChars l).reverse.dropWhile isJsWs = (trimChars l).reverse := by
  show ((dropEndWs (l.dropWhile isJsWs)).reverse).dropWhile isJsWs
      = (dropEndWs (l.dropWhile isJsWs)).reverse
  unfold dropEndWs
  rw [List.reverse_reverse]
  exact dropWhile_dropWhile_eq isJsWs _

theorem trimChars_idem (l : List Char) : trimChars (trimChars l) = trimChars l := by
  show dropEndWs ((trimChars l).dropWhile isJsWs) = trimChars l
  rw [trimChars_dropWhile]
  show dropEndWs (dropEndWs (l.dropWhile isJsWs)) = trimChars l
  rw [dropEndWs_idem]
  rfl

theorem jsTrim_idem (s : String) : jsTrim (jsTrim s) = jsTrim s :=
  String.ext (trimChars_idem s.data)

/-- A list that is trimmed on the left and the right and is nonempty stays
itself when `https://` is prepended and the whole is trimmed. -/
theorem trimChars_https_append (t : List Char) (hne : t ≠ [])
    (hr : t.reverse.dropWhile isJsWs = t.reverse) :
    trimChars ("https://".data ++ t) = "https://".data ++ t := by
  have hlead : ("https://".data ++ t).dropWhile isJsWs = "https://".data ++ t := by
    have hshape : "https://".data ++ t = 'h' :: ("ttps://".data ++ t) := rfl
    rw [hshape, List.dropWhile_cons_of_neg (by decide)]
  have hrevshape : ("https://".data ++ t).reverse = t.reverse ++ "https://".data.reverse := by
    rw [List.reverse_append]
  have htail : ("https://".data ++ t).reverse.dropWhile isJsWs
      = ("https://".data ++ t).reverse := by
    rw [hrevshape]
    cases hrev : t.reverse with
    | nil => simp [List.reverse_eq_nil_iff.mp hrev] at hne
    | cons c cs =>
      have hc : isJsWs c = false := head_false_of_dropWhile_fix (hrev ▸ hr)
      rw [List.cons_append, List.dropWhile_cons_of_neg (by simp [hc])]
  unfold trimChars
  rw [hlead]
  unfold dropEndWs
  rw [htail, List.reverse_reverse]

theorem jsStartsWith_append (pre t : String) : jsStartsWith (pre ++ t) pre = true := by
  simp [jsStartsWith, String.data_append]

/-! ## C10: idempotence of `normalizeUrl` -/

/-- C10: the URL normalization function is idempotent: its output is either
empty or a trimmed string beginning with `http://` or `https://`, each of
which normalizes to itself. -/
theorem C10_normalizeUrl_idem (s : String) :
    normalizeUrl (normalizeUrl s) = normalizeUrl s := by
  by_cases h1 : jsTrim s = ""
  · have hs : normalizeUrl s = "" := by simp only [normalizeUrl]; rw [if_pos h1]
    rw [hs]
    rfl
  · by_cases h2 : (jsStartsWith (jsTrim s) "http://"
        || jsStartsWith (jsTrim s) "https://") = true
    · have hs : normalizeUrl s = jsTrim s := by
        simp only [normalizeUrl]; rw [if_neg h1, if_pos h2]
      rw [hs]
      simp only [normalizeUrl]
      rw [jsTrim_idem, if_neg h1, if_pos h2]
    · have hs : normalizeUrl s = "https://" ++ jsTrim s := by
        simp only [normalizeUrl]; rw [if_neg h1, if_neg h2]
      have hne : (jsTrim s).data ≠ [] := by
        intro hd
        exact h1 (String.ext (show (jsTrim s).data = "".data from hd))
      have htrim : jsTrim ("https://" ++ jsTrim s) = "https://" ++ jsTrim s := by
        apply String.ext
        show trimChars ("https://" ++ jsTrim s).data = _
        rw [String.data_append]
        exact trimChars_https_append (jsTrim s).data hne
          (trimChars_reverse_dropWhile s.data)
      rw [hs]
      simp only [normalizeUrl]
      rw [htrim, if_neg (by simp [String.ext_iff, hne]),
        if_pos (by rw [jsStartsWith_append]; simp)]

/-! ## C2: normalization prepends `https://` -/

/-- C2 (amended): for input whose trimmed text is nonempty and lacks an
`http://`/`https://` prefix, `normalizeUrl` returns the trimmed text with
`https://` prepended exactly once — the part after the prepended prefix
still lacks a scheme prefix.  (The original claim, without the
nonemptiness condition, fails on whitespace-only input.) -/
theorem C2_normalize_prepends (s : String) (hne : jsTrim s ≠ "")
    (h1 : jsStartsWith (jsTrim s) "http://" = false)
    (h2 : jsStartsWith (jsTrim s) "https://" = false) :
    normalizeUrl s = "https://" ++ jsTrim s ∧
    jsStartsWith (normalizeUrl s) "https://" = true ∧
    (∃ t, normalizeUrl s = "https://" ++ t ∧
      jsStartsWith t "http://" = false ∧ jsStartsWith t "https://" = false) := by
  have hs : normalizeUrl s = "https://" ++ jsTrim s := by
    simp only [normalizeUrl]
    rw [if_neg hne, h1, h2]
    simp
  refine ⟨hs, ?_, jsTrim s, hs, h1, h2⟩
  rw [hs, jsStartsWith_append]

/-- C2 counterexample: whitespace-only input trims to the empty string,
which lacks a scheme prefix, yet `normalizeUrl` returns the empty string
rather than prepending `https://`. -/
theorem C2_counterexample :
    jsStartsWith (jsTrim " ") "http://" = false ∧
    jsStartsWith (jsTrim " ") "https://" = false ∧
    normalizeUrl " " = "" ∧
    normalizeUrl " " ≠ "https://" ++ jsTrim " " := by decide

theorem C2_witness :
    normalizeUrl "example.com" = "https://" ++ jsTrim "example.com" :=
  (C2_normalize_prepends "example.com" (by decide) (by decide) (by decide)).1

/-! ## C3: validation and the submission pipeline -/

/-- C3 (amended): direct validation rejects `ftp://x` (its scheme is not
http/https); every string the URL parser rejects fails validation; and
validation accepts only parsed protocols exactly `http:` or `https:`.
However, the submission pipeline normalizes before validating, so the
input `ftp://x` becomes `https://ftp://x`, which parses as an https URL
(host `ftp`, empty port, path `//x`) and is accepted; an input such as
`not a url`, whose normalization still fails to parse, is rejected with
the invalid-URL error. -/
theorem C3_validation (s : String) :
    validateUrl "ftp://x" = false ∧
    (parseURL s = none → validateUrl s = false) ∧
    (validateUrl s = true →
      ∃ u, parseURL s = some u ∧ (u.protocol = "http:" ∨ u.protocol = "https:")) ∧
    handleSubmit "not a url" = SubmitOutcome.invalidUrl ∧
    handleSubmit "ftp://x" = SubmitOutcome.submitted "https://ftp://x" := by
  refine ⟨by decide, ?_, ?_, by decide, by decide⟩
  · intro h
    simp [validateUrl, h]
  · intro h
    unfold validateUrl at h
    match hp : parseURL s with
    | none => rw [hp] at h; simp at h
    | some u =>
      rw [hp] at h
      simp only [Bool.or_eq_true, decide_eq_true_eq] at h
      exact ⟨u, rfl, h⟩

/-- C3 counterexample: run through the submission pipeline (normalize then
validate), the input `ftp://x` is accepted, not rejected with the
invalid-URL error. -/
theorem C3_counterexample :
    handleSubmit "ftp://x" = SubmitOutcome.submitted "https://ftp://x" ∧
    handleSubmit "ftp://x" ≠ SubmitOutcome.invalidUrl ∧
    validateUrl (normalizeUrl "ftp://x") = true := by decide

theorem C3_witness : validateUrl "nope" = false :=
  (C3_validation "nope").2.1 (by decide)

/-! ## The deep search: soundness and completeness lemmas -/

theorem getNonNull_jLookup {fields : JsonObj} {k : String} {v : Json}
    (h : getNonNull fields k = some v) : jLookup fields k = some v := by
  unfold getNonNull at h
  split at h
  · simp at h
  · next heq => injection h with h; rw [heq, h]
  · simp at h

theorem firstNonNull_mem : ∀ (ks : List String) (fields : JsonObj) (v : Json),
    firstNonNull fields ks = some v → ∃ k ∈ ks, getNonNull fields k = some v
  | [], _, _, h => by simp [firstNonNull] at h
  | k :: ks, fields, v, h => by
    rw [firstNonNull] at h
    split at h
    · next heq => injection h with h; exact ⟨k, by simp, by rw [heq, h]⟩
    · obtain ⟨k', hk', hg⟩ := firstNonNull_mem ks fields v h
      exact ⟨k', by simp [hk'], hg⟩

theorem jLookup_scanHas : ∀ (fields : JsonObj) (k s : String),
    jLookup fields k = some (Json.str s) → looksLikeUrl s = true →
    hasImageObj fields = true
  | JsonObj.nil, k, s, h, _ => by simp [jLookup] at h
  | JsonObj.cons k' v rest, k, s, h, hs => by
    rw [jLookup] at h
    by_cases hk : k' = k
    · rw [if_pos hk] at h
      injection h with h
      simp [hasImageObj, h, scanHas, hs]
    · rw [if_neg hk] at h
      simp [hasImageObj, jLookup_scanHas rest k s h hs]

theorem directImage_matches {fields : JsonObj} {s : String}
    (h : directImage fields = some s) : looksLikeUrl s = true := by
  unfold directImage at h
  split at h
  · split at h
    · next hc => injection h with h; rw [← h]; exact hc
    · simp at h
  · simp at h

theorem directImage_hasImageObj {fields : JsonObj} {s : String}
    (h : directImage fields = some s) : hasImageObj fields = true := by
  unfold directImage at h
  split at h
  · next heq =>
    split at h
    · next hc =>
      injection h with h
      obtain ⟨k, _, hg⟩ := firstNonNull_mem priorityKeys fields _ heq
      exact jLookup_scanHas fields k _ (getNonNull_jLookup hg) (h ▸ hc)
    · simp at h
  · simp at h

mutual

theorem find_isSome : ∀ j : Json, (findImageDeep j).isSome = hasImage j
  | Json.null => rfl
  | Json.bool _ => rfl
  | Json.num _ => rfl
  | Json.str _ => rfl
  | Json.obj fields => by
    cases hd : directImage fields with
    | some s => simp [findImageDeep, hasImage, hd, directImage_hasImageObj hd]
    | none => simp [findImageDeep, hasImage, hd, searchObj_isSome fields]
  | Json.arr elems => by
    simp [findImageDeep, hasImage, searchArr_isSome elems]

theorem searchObj_isSome : ∀ l : JsonObj, (searchObj l).isSome = hasImageObj l
  | JsonObj.nil => rfl
  | JsonObj.cons _ v rest => by
    cases hv : scanVal v with
    | some s =>
      have hb : scanHas v = true := by rw [← scanVal_isSome v, hv]; rfl
      simp [searchObj, hasImageObj, hv, hb]
    | none =>
      have hb : scanHas v = false := by rw [← scanVal_isSome v, hv]; rfl
      simp [searchObj, hasImageObj, hv, hb, searchObj_isSome rest]

theorem searchArr_isSome : ∀ l : JsonArr, (searchArr l).isSome = hasImageArr l
  | JsonArr.nil => rfl
  | JsonArr.cons v rest => by
    cases hv : scanVal v with
    | some s =>
      have hb : scanHas v = true := by rw [← scanVal_isSome v, hv]; rfl
      simp [searchArr, hasImageArr, hv, hb]
    | none =>
      have hb : scanHas v = false := by rw [← scanVal_isSome v, hv]; rfl
      simp [searchArr, hasImageArr, hv, hb, searchArr_isSome rest]

theorem scanVal_isSome : ∀ v : Json, (scanVal v).isSome = scanHas v
  | Json.null => rfl
  | Json.bool _ => rfl
  | Json.num _ => rfl
  | Json.str s => by
    by_cases h : looksLikeUrl s = true <;> simp [scanVal, scanHas, h]
  | Json.obj fields => by
    cases hd : directImage fields with
    | some s => simp [scanVal, scanHas, hd, directImage_hasImageObj hd]
    | none => simp [scanVal, scanHas, hd, searchObj_isSome fields]
  | Json.arr elems => by simp [scanVal, scanHas, searchArr_isSome elems]

end

mutual

theorem find_matches : ∀ (j : Json) (s : String),
    findImageDeep j = some s → looksLikeUrl s = true
  | Json.null, s => by intro h; simp [findImageDeep] at h
  | Json.bool _, s => by intro h; simp [findImageDeep] at h
  | Json.num _, s => by intro h; simp [findImageDeep] at h
  | Json.str _, s => by intro h; simp [findImageDeep] at h
  | Json.obj fields, s => by
    intro h
    rw [findImageDeep] at h
    split at h
    · next heq => injection h with h; exact h ▸ directImage_matches heq
    · exact searchObj_matches fields s h
  | Json.arr elems, s => by
    intro h
    rw [findImageDeep] at h
    exact searchArr_matches elems s h

theorem searchObj_matches : ∀ (l : JsonObj) (s : String),
    searchObj l = some s → looksLikeUrl s = true
  | JsonObj.nil, s => by intro h; simp [searchObj] at h
  | JsonObj.cons _ v rest, s => by
    intro h
    rw [searchObj] at h
    split at h
    · next heq => injection h with h; exact h ▸ scanVal_matches v _ heq
    · exact searchObj_matches rest s h

theorem searchArr_matches : ∀ (l : JsonArr) (s : String),
    searchArr l = some s → looksLikeUrl s = true
  | JsonArr.nil, s => by intro h; simp [searchArr] at h
  | JsonArr.cons v rest, s => by
    intro h
    rw [searchArr] at h
    split at h
    · next heq => injection h with h; exact h ▸ scanVal_matches v _ heq
    · exact searchArr_matches rest s h

theorem scanVal_matches : ∀ (v : Json) (s : String),
    scanVal v = some s → looksLikeUrl s = true
  | Json.null, s => by intro h; simp [scanVal] at h
  | Json.bool _, s => by intro h; simp [scanVal] at h
  | Json.num _, s => by intro h; simp [scanVal] at h
  | Json.str t, s => by
    intro h
    rw [scanVal] at h
    split at h
    · next hc => injection h with h; exact h ▸ hc
    · simp at h
  | Json.obj fields, s => by
    intro h
    rw [scanVal] at h
    split at h
    · next heq => injection h with h; exact h ▸ directImage_matches heq
    · exact searchObj_matches fields s h
  | Json.arr elems, s => by
    intro h
    rw [scanVal] at h
    exact searchArr_matches elems s h

end

/-! ## C1: the JSON branch of the interpreter -/

/-- C1 (amended): on a successful JSON response the interpreter searches
the parsed value with `findImageDeep`.  The checks of the priority list
`image`, `imageUrl`, `image_url`, `thumbnail`, `thumb`, `url` form a
nullish-coalescing chain whose match is returned before the key loop runs;
the loop then tests every string field against the image-reference pattern
and recurses depth-first into nested objects **and arrays** (JavaScript
arrays are objects, so the search does traverse them element by element).
A found string is returned as `ImageReference` and always matches the
pattern; the search finds a match exactly when one exists anywhere in the
structure, and the no-image-field note is returned when none exists.  For
the body with `thumb` nested under `data` it returns
`ImageReference "https://x/y.png"`. -/
theorem C1_json_image_search :
    (∀ j : Json, (findImageDeep j).isSome = hasImage j) ∧
    (∀ (j : Json) (s : String), findImageDeep j = some s → looksLikeUrl s = true) ∧
    (∀ (fields : JsonObj) (s : String), directImage fields = some s →
      findImageDeep (Json.obj fields) = some s) ∧
    (∀ r : WebhookResponse, r.ok = true →
      jsStartsWith r.contentType "image/" = false →
      jsIncludes r.contentType "application/json" = true →
      (∀ s, findImageDeep (r.jsonBody.getD Json.null) = some s →
          interpret r = InterpretationResult.imageRef s) ∧
      (hasImage (r.jsonBody.getD Json.null) = false →
          interpret r = InterpretationResult.note
            "Webhook responded but no image field was found.")) ∧
    interpret ⟨true, "application/json", some exampleBody, ""⟩
      = InterpretationResult.imageRef "https://x/y.png" := by
  refine ⟨find_isSome, find_matches, ?_, ?_, by decide⟩
  · intro fields s h
    simp [findImageDeep, h]
  · intro r hok himg hjson
    constructor
    · intro s hf
      simp [interpret, hok, himg, hjson, hf]
    · intro hnone
      have hf : findImageDeep (r.jsonBody.getD Json.null) = none := by
        have hi := find_isSome (r.jsonBody.getD Json.null)
        rw [hnone] at hi
        cases hx : findImageDeep (r.jsonBody.getD Json.null) with
        | none => rfl
        | some s => rw [hx] at hi; simp at hi
      simp [interpret, hok, himg, hjson, hf]

/-- C1 counterexample: for the body with the matching string only inside an
array, the claim (arrays not traversed, hence no match anywhere) predicts
the no-image-field note, but the interpreter finds the string through the
array and returns it as an `ImageReference`. -/
theorem C1_counterexample :
    interpret ⟨true, "application/json", some arrayBody, ""⟩
      = InterpretationResult.imageRef "https://x/y.png" ∧
    interpret ⟨true, "application/json", some arrayBody, ""⟩
      ≠ InterpretationResult.note "Webhook responded but no image field was found." := by
  decide

theorem C1_witness :
    interpret ⟨true, "application/json", some exampleBody, ""⟩
      = InterpretationResult.imageRef "https://x/y.png" :=
  (C1_json_image_search.2.2.2.1 ⟨true, "application/json", some exampleBody, ""⟩
    rfl (by decide) (by decide)).1 "https://x/y.png" (by decide)

/-! ## C4: non-2xx responses -/

/-- C4: whenever the response status is not a success status, the
interpreter takes the error branch — the spec's `Error(WebhookError)` —
regardless of content type and body, and never produces an image reference,
an image blob, or a plain note. -/
theorem C4_non2xx (r : WebhookResponse) (h : r.ok = false) :
    interpret r = InterpretationResult.webhookError "Webhook responded with an error." ∧
    (∀ s, interpret r ≠ InterpretationResult.imageRef s) ∧
    (∀ m, interpret r ≠ InterpretationResult.note m) ∧
    interpret r ≠ InterpretationResult.imageBlob := by
  have he : interpret r
      = InterpretationResult.webhookError "Webhook responded with an error." := by
    simp [interpret, h]
  exact ⟨he, fun s => by simp [he], fun m => by simp [he], by simp [he]⟩

theorem C4_witness :
    interpret ⟨false, "application/json", some exampleBody, "body"⟩
      = InterpretationResult.webhookError "Webhook responded with an error." :=
  (C4_non2xx ⟨false, "application/json", some exampleBody, "body"⟩ rfl).1

/-! ## C5: malformed JSON degrades to the note -/

/-- C5: on a successful JSON-content-type response whose body fails to
parse (`res.json()` throws, leaving `data = null`), the interpreter does
not propagate the error: it returns the no-image-field note. -/
theorem C5_malformed_json (r : WebhookResponse) (hok : r.ok = true)
    (himg : jsStartsWith r.contentType "image/" = false)
    (hjson : jsIncludes r.contentType "application/json" = true)
    (hfail : r.jsonBody = none) :
    interpret r
      = InterpretationResult.note "Webhook responded but no image field was found." := by
  simp [interpret, hok, himg, hjson, hfail, Option.getD, findImageDeep]

theorem C5_witness :
    interpret ⟨true, "application/json", none, "not json"⟩
      = InterpretationResult.note "Webhook responded but no image field was found." :=
  C5_malformed_json ⟨true, "application/json", none, "not json"⟩ rfl
    (by decide) (by decide) rfl

/-! ## C6: the text branch -/

/-- C6: on a successful response whose content type is neither an image
type nor JSON, the interpreter reads the body as text: a nonempty body
whose trimmed text matches the image pattern becomes an `ImageReference`
of the trimmed text; an empty body yields the no-body note; anything else
yields the no-image-field note. -/
theorem C6_text_branch (r : WebhookResponse) (hok : r.ok = true)
    (himg : jsStartsWith r.contentType "image/" = false)
    (hjson : jsIncludes r.contentType "application/json" = false) :
    (r.textBody ≠ "" → looksLikeUrl (jsTrim r.textBody) = true →
      interpret r = InterpretationResult.imageRef (jsTrim r.textBody)) ∧
    (r.textBody = "" →
      interpret r = InterpretationResult.note "Webhook responded with no body.") ∧
    (r.textBody ≠ "" → looksLikeUrl (jsTrim r.textBody) = false →
      interpret r
        = InterpretationResult.note "Webhook responded but no image field was found.") := by
  refine ⟨fun hne hm => ?_, fun hempty => ?_, fun hne hm => ?_⟩
  · simp [interpret, hok, himg, hjson, hne, hm]
  · simp [interpret, hok, himg, hjson, hempty]
  · simp [interpret, hok, himg, hjson, hne, hm]

theorem C6_witness :
    interpret ⟨true, "text/plain", none, ""⟩
      = InterpretationResult.note "Webhook responded with no body." :=
  (C6_text_branch ⟨true, "text/plain", none, ""⟩ rfl (by decide) (by decide)).2.1 rfl

/-! ## C7: download filenames -/

theorem jsStartsWith_mono {s p q : String}
    (hpq : jsStartsWith q p = true) (hs : jsStartsWith s q = true) :
    jsStartsWith s p = true := by
  simp only [jsStartsWith, List.isPrefixOf_iff_prefix] at *
  exact hpq.trans hs

/-- C7 (amended): for a remote (non-`blob:`, non-`data:`) reference, the
filename is derived from the URL's last path segment: a segment containing
a dot is used verbatim, a dotless segment gets `.png` appended, an empty
segment falls back to `preview.png`, and a reference the URL parser
rejects also falls back to `preview.png`; the segment `y.png` of
`https://x/y.png` is kept as is. -/
theorem C7_download_filename (s : String) (u : URLModel)
    (_hblob : jsStartsWith s "blob:" = false)
    (hdata : jsStartsWith s "data:" = false) :
    (parseURL s = none → getFilename s = "preview.png") ∧
    (parseURL s = some u →
      (lastSegment u.pathname ≠ "" → jsIncludes (lastSegment u.pathname) "." = true →
        getFilename s = lastSegment u.pathname) ∧
      (lastSegment u.pathname ≠ "" → jsIncludes (lastSegment u.pathname) "." = false →
        getFilename s = lastSegment u.pathname ++ ".png") ∧
      (lastSegment u.pathname = "" → getFilename s = "preview.png")) ∧
    getFilename "https://x/y.png" = "y.png" := by
  have hdi : jsStartsWith s "data:image/" = false := by
    by_cases h : jsStartsWith s "data:image/" = true
    · rw [jsStartsWith_mono (by decide) h] at hdata
      exact absurd hdata (by simp)
    · simpa using h
  refine ⟨fun hp => ?_, fun hp => ?_, by decide⟩
  · simp [getFilename, hdi, hp]
  · have hg : getFilename s =
        (if jsIncludes (if lastSegment u.pathname = "" then "preview"
            else lastSegment u.pathname) "." = true then
          (if lastSegment u.pathname = "" then "preview" else lastSegment u.pathname)
        else (if lastSegment u.pathname = "" then "preview"
            else lastSegment u.pathname) ++ ".png") := by
      simp only [getFilename, hdi, hp]
      rfl
    refine ⟨fun hne hdot => ?_, fun hne hdot => ?_, fun hemp => ?_⟩
    · rw [hg, if_neg hne, if_pos hdot]
    · rw [hg, if_neg hne, if_neg (by simp [hdot])]
    · rw [hg, if_pos hemp, if_neg (by decide)]
      rfl

/-- C7 counterexample: `https://x/abc` has a last segment without an
extension, yet the filename is `abc.png`, not the claimed default
`preview.png`. -/
theorem C7_counterexample :
    getFilename "https://x/abc" = "abc.png" ∧
    getFilename "https://x/abc" ≠ "preview.png" ∧
    jsIncludes (lastSegment "/abc") "." = false := by decide

theorem C7_witness : getFilename "http://" = "preview.png" :=
  (C7_download_filename "http://" ⟨"http:", "/"⟩ (by decide) (by decide)).1 (by decide)

/-! ## C8: toast self-removal -/

theorem mem_insertByTime {a x : Nat × ToastAction} :
    ∀ l, x ∈ insertByTime a l ↔ x = a ∨ x ∈ l
  | [] => by simp [insertByTime]
  | b :: rest => by
    rw [insertByTime]
    by_cases h : b.1 ≤ a.1
    · rw [if_pos h]
      simp only [List.mem_cons, mem_insertByTime rest]
      tauto
    · rw [if_neg h]
      exact List.mem_cons

theorem pairwise_insertByTime (a : Nat × ToastAction) :
    ∀ l, List.Pairwise (fun x y => x.1 ≤ y.1) l →
      List.Pairwise (fun x y => x.1 ≤ y.1) (insertByTime a l)
  | [], _ => by simp [insertByTime]
  | b :: rest, hp => by
    rw [insertByTime]
    rcases List.pairwise_cons.mp hp with ⟨hb, hrest⟩
    by_cases h : b.1 ≤ a.1
    · rw [if_pos h]
      refine List.pairwise_cons.mpr ⟨?_, pairwise_insertByTime a rest hrest⟩
      intro x hx
      rcases (mem_insertByTime rest).mp hx with rfl | hx
      · exact h
      · exact hb x hx
    · rw [if_neg h]
      refine List.pairwise_cons.mpr ⟨?_, hp⟩
      intro x hx
      rcases List.mem_cons.mp hx with rfl | hx
      · exact Nat.le_of_not_le h
      · exact (Nat.le_of_not_le h).trans (hb x hx)

theorem pairwise_timeline (sched : List (Nat × ToastEvent)) :
    List.Pairwise (fun x y => x.1 ≤ y.1) (timeline sched) := by
  unfold timeline
  induction allActions sched with
  | nil => simp
  | cons a rest ih => exact pairwise_insertByTime a _ ih

theorem mem_timeline {x : Nat × ToastAction} (sched : List (Nat × ToastEvent)) :
    x ∈ timeline sched ↔ x ∈ allActions sched := by
  unfold timeline
  induction allActions sched with
  | nil => simp
  | cons a rest ih =>
    rw [List.foldr_cons, mem_insertByTime, ih, List.mem_cons]

theorem removal_mem_allActions {T : Nat} {msg : String} {ty : ToastType} :
    ∀ sched, (T, ToastEvent.add msg ty) ∈ sched →
      (T + 3000, ToastAction.removeId T) ∈ allActions sched
  | [], h => by simp at h
  | ev :: rest, h => by
    rw [allActions]
    rcases List.mem_cons.mp h with he | hr
    · exact List.mem_append_left _ (by rw [← he]; simp [eventActions])
    · exact List.mem_append_right _ (removal_mem_allActions rest hr)

theorem push_id_allActions :
    ∀ (sched : List (Nat × ToastEvent)) (t : Nat) (m : ToastMsg),
      (t, ToastAction.push m) ∈ allActions sched → m.id = t
  | [], t, m, h => by simp [allActions] at h
  | (t', ev) :: rest, t, m, h => by
    rw [allActions] at h
    rcases List.mem_append.mp h with hl | hr
    · cases ev with
      | add msg ty =>
        simp only [eventActions, List.mem_cons, List.mem_singleton,
          List.not_mem_nil, or_false] at hl
        rcases hl with h1 | h1
        · obtain ⟨h2, h3⟩ := Prod.ext_iff.mp h1
          simp only [ToastAction.push.injEq] at h3
          simp only at h2
          rw [h3]
          exact h2.symm
        · obtain ⟨-, h3⟩ := Prod.ext_iff.mp h1
          exact absurd h3 (by simp)
      | dismiss i =>
        simp [eventActions, Prod.ext_iff] at hl
    · exact push_id_allActions rest t m hr

theorem fold_no_push (i : Nat) :
    ∀ (acts : List (Nat × ToastAction)) (q : List ToastMsg),
      (∀ t m, (t, ToastAction.push m) ∈ acts → m.id ≠ i) →
      (∀ m ∈ q, m.id ≠ i) →
      ∀ m ∈ acts.foldl (fun q a => applyAction q a.2) q, m.id ≠ i
  | [], _, _, hq, m, hm => hq m hm
  | (t, act) :: rest, q, hpush, hq, m, hm => by
    rw [List.foldl_cons] at hm
    refine fold_no_push i rest (applyAction q act) ?_ ?_ m hm
    · intro t' m' h'
      exact hpush t' m' (List.mem_cons_of_mem _ h')
    · intro m' hm'
      cases act with
      | push m2 =>
        simp only [applyAction, List.mem_append, List.mem_singleton] at hm'
        rcases hm' with h | rfl
        · exact hq m' h
        · exact hpush t m' (List.mem_cons_self _ _)
      | removeId j =>
        simp only [applyAction, List.mem_filter] at hm'
        exact hq m' hm'.1

theorem no_id_after_removal (i t0 : Nat) :
    ∀ (acts : List (Nat × ToastAction)) (q : List ToastMsg),
      List.Pairwise (fun x y => x.1 ≤ y.1) acts →
      (t0, ToastAction.removeId i) ∈ acts →
      (∀ t m, (t, ToastAction.push m) ∈ acts → m.id = i → t < t0) →
      ∀ m ∈ acts.foldl (fun q a => applyAction q a.2) q, m.id ≠ i
  | [], _, _, hmem, _, m, hm => by simp at hmem
  | (t, act) :: rest, q, hp, hmem, hpush, m, hm => by
    rw [List.foldl_cons] at hm
    rcases List.pairwise_cons.mp hp with ⟨hb, hrest⟩
    by_cases hhead : (t, act) = (t0, ToastAction.removeId i)
    · obtain ⟨rfl, rfl⟩ := Prod.mk.injEq .. ▸ hhead
      refine fold_no_push i rest (applyAction q (ToastAction.removeId i)) ?_ ?_ m hm
      · intro t' m' h' hmid
        have hlt : t' < t := hpush t' m' (List.mem_cons_of_mem _ h') hmid
        have hge : t ≤ t' := hb (t', ToastAction.push m') h'
        omega
      · intro m' hm'
        simp only [applyAction, List.mem_filter, decide_eq_true_eq] at hm'
        exact hm'.2
    · rcases List.mem_cons.mp hmem with h | h
      · exact absurd h.symm (by simpa using hhead)
      · exact no_id_after_removal i t0 rest (applyAction q act) hrest h
          (fun t' m' h' => hpush t' m' (List.mem_cons_of_mem _ h')) m hm

/-- C8: a toast inserted at time `T` is no longer visible at `T + 3100`
(3.1 time units later), whether or not it was manually dismissed: its own
3000 ms timer has already filtered every toast with its id out of the
queue, and later toasts carry later ids. -/
theorem C8_toast_expiry (sched : List (Nat × ToastEvent)) (T : Nat)
    (msg : String) (ty : ToastType)
    (hmem : (T, ToastEvent.add msg ty) ∈ sched)
    (_hnodismiss : ∀ t, (t, ToastEvent.dismiss T) ∉ sched) :
    (visibleAt sched (T + 3100)).filter (fun m => m.id = T) = [] := by
  rw [List.filter_eq_nil_iff]
  intro m hm
  simp only [decide_eq_true_eq]
  refine no_id_after_removal T (T + 3000) _ [] ?_ ?_ ?_ m hm
  · exact (pairwise_timeline sched).sublist (List.filter_sublist _)
  · refine List.mem_filter.mpr ⟨?_, by simp⟩
    exact (mem_timeline sched).mpr (removal_mem_allActions sched hmem)
  · intro t m' h' hid
    have ht : (t, ToastAction.push m') ∈ timeline sched :=
      (List.mem_filter.mp h').1
    have := push_id_allActions sched t m' ((mem_timeline sched).mp ht)
    omega

theorem C8_witness :
    (visibleAt [(0, ToastEvent.add "Preview received from webhook" ToastType.success)]
        3100).filter (fun m => m.id = 0) = [] :=
  C8_toast_expiry [(0, ToastEvent.add "Preview received from webhook" ToastType.success)]
    0 "Preview received from webhook" ToastType.success (by simp)
    (by intro t h; simp at h)

/-! ## C9: one active result per submission -/

theorem seq_inv : ∀ (tr : List AppEvent) (cur : Option Nat) (resp : Bool) (s : TaggedState),
    seqOKAux cur resp tr = true →
    (∀ t ∈ tagsOf s, some t = cur) →
    ∀ t ∈ tagsOf (tr.foldl applyEvent s), some t = lastSubmittedFrom cur tr
  | [], _, _, s, _, hs, t, ht => hs t ht
  | AppEvent.submit n :: rest, cur, resp, s, hok, _, t, ht => by
    rw [seqOKAux] at hok
    rw [List.foldl_cons] at ht
    simp only [lastSubmittedFrom, List.foldl_cons]
    refine seq_inv rest (some n) false (applyEvent s (AppEvent.submit n)) hok ?_ t ht
    intro t' ht'
    simp [applyEvent, tagsOf] at ht'
  | AppEvent.respond n r :: rest, cur, resp, s, hok, hs, t, ht => by
    rw [seqOKAux] at hok
    simp only [Bool.and_eq_true, decide_eq_true_eq] at hok
    obtain ⟨⟨hc, -⟩, hrest⟩ := hok
    rw [List.foldl_cons] at ht
    simp only [lastSubmittedFrom, List.foldl_cons]
    refine seq_inv rest cur true (applyEvent s (AppEvent.respond n r)) hrest ?_ t ht
    intro t' ht'
    cases r with
    | imageBlob =>
      simp only [applyEvent, tagsOf] at ht'
      rcases List.mem_append.mp ht' with h | h
      · rw [List.mem_singleton.mp h]
        exact hc.symm
      · exact hs t' (List.mem_append_right _ h)
    | imageRef u =>
      simp only [applyEvent, tagsOf] at ht'
      rcases List.mem_append.mp ht' with h | h
      · rw [List.mem_singleton.mp h]
        exact hc.symm
      · exact hs t' (List.mem_append_right _ h)
    | note m =>
      simp only [applyEvent, tagsOf] at ht'
      rcases List.mem_append.mp ht' with h | h
      · exact hs t' (List.mem_append_left _ h)
      · rw [List.mem_singleton.mp h]
        exact hc.symm
    | webhookError m =>
      simp only [applyEvent, tagsOf] at ht'
      rcases List.mem_append.mp ht' with h | h
      · exact hs t' (List.mem_append_left _ h)
      · rw [List.mem_singleton.mp h]
        exact hc.symm

/-- C9 (amended): every new submission's prologue clears both result slots
and enters the loading state before any new result can be set, and along
any sequential trace (each response handled while its submission is still
the latest) every active result is owned by the latest submission — at
most one submission's results are active.  However, a superseded handler
still fires (there is no cancellation), so a well-formed racing trace
reaches a state holding results of two different submissions
simultaneously; the unreachability conclusion of the original claim only
holds for sequential traces. -/
theorem C9_single_result :
    (∀ (s : TaggedState) (n : Nat),
      applyEvent s (AppEvent.submit n) = ⟨none, none, true⟩) ∧
    (∀ tr : List AppEvent, seqOK tr = true →
      (tagsOf (run tr)).all (fun t => some t = lastSubmitted tr) = true) ∧
    (traceOK raceTrace = true ∧
      (run raceTrace).image.map Prod.fst = some 0 ∧
      (run raceTrace).note.map Prod.fst = some 1) := by
  refine ⟨fun s n => rfl, fun tr hseq => ?_, by decide⟩
  rw [List.all_eq_true]
  intro t ht
  simp only [decide_eq_true_eq]
  exact seq_inv tr none false initState hseq
    (by intro t' ht'; simp [tagsOf, initState] at ht') t ht

/-- C9 counterexample: in the well-formed racing trace — submit 0,
submit 1, then both handlers fire — the final state holds submission 0's
image together with submission 1's note: results of two submissions are
simultaneously active, contradicting the claimed unreachability. -/
theorem C9_counterexample :
    traceOK raceTrace = true ∧
    (run raceTrace).image.map Prod.fst = some 0 ∧
    (run raceTrace).note.map Prod.fst = some 1 ∧
    (run raceTrace).image.map Prod.fst ≠ (run raceTrace).note.map Prod.fst := by
  decide

theorem C9_witness :
    (tagsOf (run [AppEvent.submit 0,
        AppEvent.respond 0 (InterpretationResult.imageRef "https://a/b.png")])).all
      (fun t => some t = lastSubmitted [AppEvent.submit 0,
        AppEvent.respond 0 (InterpretationResult.imageRef "https://a/b.png")]) = true :=
  C9_single_result.2.1
    [AppEvent.submit 0, AppEvent.respond 0 (InterpretationResult.imageRef "https://a/b.png")]
    (by decide)

end UrlCollector
